import Mathlib

/-!
# custom-shell: tokenizer, completion engine and line editor

A shallow embedding of `src/main.cpp`.

* `std::string` is a `List Char`; every `Char` stands for one byte of the C++
  `char` type and is compared through its code.
* `std::vector<std::string>` is a `List (List Char)`.
* `cout << ...` appends to an explicit output string.
* The two globals `last_tab_token` and `tab_press_count` are the fields of
  `TabState`, threaded through every call.
* `PATH` and the file system are an explicit `PathEnv` argument.
-/

namespace CustomShell

/-- A `std::string`. -/
abbrev Str := List Char

/-! ## Character constants of the source -/

/-- The character written `'\\'` in the source. -/
def BACKSLASH : Char := Char.ofNat 92
/-- The character written `'\''` in the source. -/
def SQUOTE : Char := Char.ofNat 39
/-- The character written `'"'` in the source. -/
def DQUOTE : Char := Char.ofNat 34
/-- The character written `'$'` in the source. -/
def DOLLAR : Char := Char.ofNat 36
/-- The character written `'\n'` in the source. -/
def NEWLINE : Char := Char.ofNat 10
/-- The character written `'\t'` in the source. -/
def TAB : Char := Char.ofNat 9
/-- The character written `' '` in the source. -/
def SPACE : Char := Char.ofNat 32
/-- The character written `'\a'` in the source (the bell). -/
def BELL : Char := Char.ofNat 7
/-- The character written `'\b'` in the source. -/
def BACKSPACE : Char := Char.ofNat 8
/-- The character with code 127, tested by `c == 127` in the line editor. -/
def DEL : Char := Char.ofNat 127

/-- The C library `isspace` in the "C" locale (the program never calls
`setlocale`): space, `\t`, `\n`, `\v`, `\f`, `\r`. -/
def isspace (c : Char) : Bool :=
  c.toNat == 32 || (9 ≤ c.toNat && c.toNat ≤ 13)

/-! ## `tokenize` (main.cpp 179-238) -/

/-- The scanner states: `enum State { NORMAL, IN_SINGLE, IN_DOUBLE }`. -/
inductive State where
  | NORMAL
  | IN_SINGLE
  | IN_DOUBLE
deriving DecidableEq, Repr

/-- The body of the `for` loop of `tokenize`, run over the characters that are
still unread (`input[i..]`), with the loop variables `state`, `tokens` and
`current`.  It returns `tokens` and `current` as they are when the loop ends.
`i + 1 < input.size()` holds exactly when a character follows the one read. -/
def tokenizeLoop : State → Str → List Str → Str → List Str × Str
  | _, [], tokens, current => (tokens, current)
  | State.NORMAL, c :: rest, tokens, current =>
    if isspace c then
      if current ≠ [] then tokenizeLoop State.NORMAL rest (tokens ++ [current]) []
      else tokenizeLoop State.NORMAL rest tokens current
    else if c = BACKSLASH then
      match rest with
      | next :: rest2 => tokenizeLoop State.NORMAL rest2 tokens (current ++ [next])
      | [] => tokenizeLoop State.NORMAL [] tokens (current ++ [c])
    else if c = SQUOTE then tokenizeLoop State.IN_SINGLE rest tokens current
    else if c = DQUOTE then tokenizeLoop State.IN_DOUBLE rest tokens current
    else tokenizeLoop State.NORMAL rest tokens (current ++ [c])
  | State.IN_SINGLE, c :: rest, tokens, current =>
    if c = SQUOTE then tokenizeLoop State.NORMAL rest tokens current
    else tokenizeLoop State.IN_SINGLE rest tokens (current ++ [c])
  | State.IN_DOUBLE, c :: rest, tokens, current =>
    if c = DQUOTE then tokenizeLoop State.NORMAL rest tokens current
    else if c = BACKSLASH then
      match rest with
      | next :: rest2 =>
        if next = BACKSLASH ∨ next = DOLLAR ∨ next = DQUOTE ∨ next = NEWLINE then
          tokenizeLoop State.IN_DOUBLE rest2 tokens (current ++ [next])
        else tokenizeLoop State.IN_DOUBLE (next :: rest2) tokens (current ++ [c])
      | [] => tokenizeLoop State.IN_DOUBLE [] tokens (current ++ [c])
    else tokenizeLoop State.IN_DOUBLE rest tokens (current ++ [c])

/-- The function `tokenize`: run the loop from `NORMAL` with no tokens and an
empty `current`, then push `current` when it is not empty. -/
def tokenize (input : Str) : List Str :=
  let r := tokenizeLoop State.NORMAL input [] []
  if r.2 ≠ [] then r.1 ++ [r.2] else r.1


/-! ## `longestCommonPrefix` (main.cpp 22-35) -/

/-- The inner `while` loop of `longestCommonPrefix`: the value of `j` when the
loop stops, the number of leading positions at which the two strings agree. -/
def commonLen : Str → Str → Nat
  | a :: as, b :: bs => if a = b then commonLen as bs + 1 else 0
  | _, _ => 0

/-- The outer `for` loop of `longestCommonPrefix` over `strs[1..]`, carrying
the running value `pfx` of the variable the source calls the common start.
The loop breaks as soon as that value is empty. -/
def lcpLoop (pfx : Str) : List Str → Str
  | [] => pfx
  | s :: rest =>
    let p := pfx.take (commonLen pfx s)
    if p = [] then p else lcpLoop p rest

/-- The function `longestCommonPrefix`. -/
def longestCommonPrefix (strs : List Str) : Str :=
  match strs with
  | [] => []
  | s0 :: rest => lcpLoop s0 rest

/-! ## `handleTabPress` (main.cpp 51-142) -/

/-- The globals `last_tab_token` and `tab_press_count`. -/
structure TabState where
  last_tab_token : Str
  tab_press_count : Int
deriving DecidableEq, Repr

/-- The value of both globals at program start, and after every reset. -/
def TabState.init : TabState := { last_tab_token := [], tab_press_count := 0 }

/-- A 32-bit `int` keeps its value modulo `2^32`, in `[-2^31, 2^31)`. -/
def wrapInt32 (n : Int) : Int := (n + 2147483648) % 4294967296 - 2147483648

/-- One entry met by `fs::directory_iterator`: its file name, the answer of
`entry.is_regular_file()` and whether `access(path, X_OK) == 0`. -/
structure DirEntry where
  filename : Str
  is_regular_file : Bool
  executable : Bool
deriving DecidableEq, Repr

/-- The search path as the completion loop sees it: the directories of `PATH`
in order, each with the entries its iteration yields.  A directory that cannot
be opened yields none (the `catch` skips it), and so does an unset `PATH`. -/
abbrev PathEnv := List (List DirEntry)

/-- The call `s.find_first_of(chars)`; `none` is `string::npos`. -/
def find_first_of (chars : Str) : Str → Option Nat
  | [] => none
  | c :: rest =>
    if c ∈ chars then some 0
    else match find_first_of chars rest with
      | some k => some (k + 1)
      | none => none

/-- The `firstToken` of `handleTabPress`. -/
def firstTokenOf (input : Str) : Str :=
  match find_first_of [SPACE, TAB] input with
  | none => input
  | some pos => input.take pos

/-- The `remainder` of `handleTabPress`. -/
def remainderOf (input : Str) : Str :=
  match find_first_of [SPACE, TAB] input with
  | none => []
  | some pos => input.drop pos

/-- The body of the loop over the entries of one directory: the value of
`candidates` after the entry `e` has been looked at. -/
def scanEntry (firstToken : Str) (candidates : List Str) (e : DirEntry) : List Str :=
  if !e.is_regular_file then candidates
  else if e.filename.length < firstToken.length then candidates
  else if e.filename.take firstToken.length = firstToken then
    if e.executable then
      if e.filename ∉ candidates then candidates ++ [e.filename] else candidates
    else candidates
  else candidates

/-- The two nested loops that fill `candidates`. -/
def collectCandidates (env : PathEnv) (firstToken : Str) : List Str :=
  env.foldl (fun cands dir => dir.foldl (scanEntry firstToken) cands) []

/-- The comparison `a < b` of two `std::string`: lexicographic, characters
compared through their codes. -/
def strLt : Str → Str → Bool
  | [], [] => false
  | [], _ :: _ => true
  | _ :: _, [] => false
  | a :: as, b :: bs =>
    if a.toNat < b.toNat then true
    else if b.toNat < a.toNat then false
    else strLt as bs

/-- The comparison `!(b < a)`. -/
def strLe (a b : Str) : Bool := !strLt b a

/-- The call `sort(candidates.begin(), candidates.end())`: the ascending
arrangement of the strings, computed here by insertion. -/
def sort (l : List Str) : List Str :=
  l.insertionSort (fun a b => strLe a b = true)

/-- The loop that prints the candidates, two spaces between neighbours. -/
def listCandidates : List Str → Str
  | [] => []
  | [s] => s
  | s :: t :: rest => s ++ [SPACE, SPACE] ++ listCandidates (t :: rest)

/-- What one call of `handleTabPress` leaves behind: the new value of
`input`, the characters it wrote to `cout`, and the two globals. -/
structure TabResult where
  input : Str
  out : Str
  state : TabState
deriving DecidableEq, Repr

/-- The update of the globals at the head of `handleTabPress` (lines 57-63). -/
def updatePress (st : TabState) (firstToken : Str) : TabState :=
  if firstToken = st.last_tab_token then
    { st with tab_press_count := wrapInt32 (st.tab_press_count + 1) }
  else { last_tab_token := firstToken, tab_press_count := 1 }

/-- The function `handleTabPress`. -/
def handleTabPress (env : PathEnv) (st : TabState) (input : Str) : TabResult :=
  let firstToken := firstTokenOf input
  let remainder := remainderOf input
  let st1 := updatePress st firstToken
  if firstToken = [] then { input := input, out := [BELL], state := st1 }
  else
    let candidates := collectCandidates env firstToken
    if candidates = [] then { input := input, out := [BELL], state := st1 }
    else
      let candidates := sort candidates
      let lcp := longestCommonPrefix candidates
      if lcp.length > firstToken.length then
        let missing := lcp.drop firstToken.length
        let sp : Str := if candidates.length = 1 ∧ remainder = [] then [SPACE] else []
        { input := (lcp ++ sp) ++ remainder, out := missing ++ sp, state := TabState.init }
      else if st1.tab_press_count = 1 then
        { input := input, out := [BELL], state := TabState.init }
      else
        { input := input
          out := [NEWLINE] ++ listCandidates candidates ++ [NEWLINE] ++ [DOLLAR, SPACE] ++ input
          state := TabState.init }

/-! ## `readInputWithTabSupport` (main.cpp 144-165) -/

/-- The variables the input loop works on: the buffer `input`, everything
written to `cout` so far, and the two globals. -/
structure EditorState where
  input : Str
  out : Str
  tab : TabState
deriving DecidableEq, Repr

/-- The three branches of the loop body that do not leave the loop, for a
character `c` other than `'\n'`. -/
def editorStep (env : PathEnv) (s : EditorState) (c : Char) : EditorState :=
  if c = TAB then
    let r := handleTabPress env s.tab s.input
    { input := r.input, out := s.out ++ r.out, tab := r.state }
  else if c = DEL then
    if s.input ≠ [] then
      { s with input := s.input.dropLast, out := s.out ++ [BACKSPACE, SPACE, BACKSPACE] }
    else s
  else { s with input := s.input ++ [c], out := s.out ++ [c] }

/-- The function `readInputWithTabSupport`, reading the characters `getchar`
delivers from the given list.  The loop ends only at a `'\n'`; when the list
holds none the call does not return, which is `none`. -/
def readInputWithTabSupport (env : PathEnv) : List Char → EditorState → Option EditorState
  | [], _ => none
  | c :: cs, s =>
    if c = NEWLINE then some { s with out := s.out ++ [NEWLINE] }
    else readInputWithTabSupport env cs (editorStep env s c)

/-! ## Vocabulary of the properties -/

/-- A character that the unquoted state copies as it is: not a white-space
character (`isspace`), not a quote and not a backslash. -/
def plainChar (c : Char) : Bool :=
  !isspace c && c != SQUOTE && c != DQUOTE && c != BACKSLASH

/-- A plain word: not empty, made of plain characters only. -/
def plainWord (w : Str) : Prop := w ≠ [] ∧ ∀ c ∈ w, plainChar c = true

instance (w : Str) : Decidable (plainWord w) :=
  inferInstanceAs (Decidable (_ ∧ _))

/-- The words, one space between neighbours. -/
def joinSpaces : List Str → Str
  | [] => []
  | [w] => w
  | w :: v :: rest => w ++ [SPACE] ++ joinSpaces (v :: rest)

/-- The word `w`, then for each pair `(n, v)` a run of `n` spaces and the
word `v`. -/
def joinRuns (w : Str) : List (Nat × Str) → Str
  | [] => w
  | (n, v) :: rest => w ++ List.replicate n SPACE ++ joinRuns v rest

/-- The last two lines of `tokenize`, applied to what the loop returns. -/
def finish (r : List Str × Str) : List Str :=
  if r.2 ≠ [] then r.1 ++ [r.2] else r.1

/-- The environment of the documented example: one directory holding the
executables `fool`, `foo` and `food`. -/
def fooEnv : PathEnv :=
  [[{ filename := "fool".toList, is_regular_file := true, executable := true },
    { filename := "foo".toList, is_regular_file := true, executable := true },
    { filename := "food".toList, is_regular_file := true, executable := true }]]

/-- No character of the string is a space or a tab. -/
def noBlank (s : Str) : Prop := ∀ c ∈ s, c ≠ SPACE ∧ c ≠ TAB

instance (s : Str) : Decidable (noBlank s) :=
  inferInstanceAs (Decidable (∀ c ∈ s, _))

/-- The string is empty or starts with a space or a tab. -/
def blankHead : Str → Bool
  | [] => true
  | c :: _ => c == SPACE || c == TAB

/-- The name `n` is the file name of a regular, executable entry of some
directory of the search path, and the string `tok` is a literal start of it. -/
def isCandidate (env : PathEnv) (tok n : Str) : Prop :=
  ∃ dir ∈ env, ∃ e ∈ dir,
    e.filename = n ∧ e.is_regular_file = true ∧ e.executable = true ∧ tok <+: n

/-- The string ends with a space, and with one only: its last character is a
space and the character before it, if any, is not. -/
def endsWithOneSpace (s : Str) : Bool :=
  s.getLast? == some SPACE && s.dropLast.getLast? != some SPACE

/-- The state after `n` successive calls of `handleTabPress`, each on the
line and the globals the call before it left; `out` collects what they
wrote. -/
def tabPresses (env : PathEnv) : Nat → TabState → Str → TabResult
  | 0, st, input => { input := input, out := [], state := st }
  | n + 1, st, input =>
    let r := tabPresses env n st input
    let r2 := handleTabPress env r.state r.input
    { input := r2.input, out := r.out ++ r2.out, state := r2.state }

/-- An environment with a single executable whose name is `ab` followed by a
space. -/
def abEnv : PathEnv :=
  [[{ filename := ['a', 'b', SPACE], is_regular_file := true, executable := true }]]

/-- An environment with the single executable `ls`. -/
def lsEnv : PathEnv :=
  [[{ filename := "ls".toList, is_regular_file := true, executable := true }]]

/-! ## `shell_escape` (main.cpp 167-177) and the command line of `main` -/

/-- The body of the `for` loop of `shell_escape`: the value of `escaped`
after the character `c`; for a single quote the four characters `'\''` are
appended. -/
def escapeStep (escaped : Str) (c : Char) : Str :=
  if c = SQUOTE then escaped ++ [SQUOTE, BACKSLASH, SQUOTE, SQUOTE]
  else escaped ++ [c]

/-- The function `shell_escape`. -/
def shell_escape (s : Str) : Str :=
  s.foldl escapeStep [SQUOTE] ++ [SQUOTE]

/-- The string `full_command` that `main` builds (lines 345-348) from the
tokens `cmd :: args`. -/
def full_command (cmd : Str) (args : List Str) : Str :=
  args.foldl (fun acc t => acc ++ ([SPACE] ++ shell_escape t)) (shell_escape cmd)

/-- Every character of the string is a plain character. -/
def plainChars (w : Str) : Prop := ∀ c ∈ w, plainChar c = true

instance (w : Str) : Decidable (plainChars w) :=
  inferInstanceAs (Decidable (∀ c ∈ w, _))

/-- The string with a backslash put before each of its characters. -/
def backslashEach : Str → Str
  | [] => []
  | c :: cs => BACKSLASH :: c :: backslashEach cs

/-- The form-feed character `'\f'`, code 12. -/
def FORMFEED : Char := Char.ofNat 12

/-- The characters `shell_escape` puts between the two outer quotes. -/
def escapeBody : Str → Str
  | [] => []
  | c :: cs =>
    if c = SQUOTE then SQUOTE :: BACKSLASH :: SQUOTE :: SQUOTE :: escapeBody cs
    else c :: escapeBody cs

/-- The branch of `handleTabPress` that extends the line is taken: the first
token is not empty, there is a candidate, and the common start of the sorted
candidates is longer than the first token. -/
def expansionOccurs (env : PathEnv) (input : Str) : Prop :=
  firstTokenOf input ≠ [] ∧ collectCandidates env (firstTokenOf input) ≠ [] ∧
    (firstTokenOf input).length <
      (longestCommonPrefix (sort (collectCandidates env (firstTokenOf input)))).length

instance (env : PathEnv) (input : Str) : Decidable (expansionOccurs env input) :=
  inferInstanceAs (Decidable (_ ∧ _ ∧ _))

/-! ## The tokenizer -/

theorem tokenize_eq_finish (input : Str) :
    tokenize input = finish (tokenizeLoop State.NORMAL input [] []) := rfl

theorem plainChar_iff (c : Char) :
    plainChar c = true ↔
      isspace c = false ∧ c ≠ SQUOTE ∧ c ≠ DQUOTE ∧ c ≠ BACKSLASH := by
  simp [plainChar, and_assoc]

/-- In the unquoted state a plain character is appended to `current`. -/
theorem loop_plainChar (c : Char) (hc : plainChar c = true) (rest : Str)
    (tokens : List Str) (current : Str) :
    tokenizeLoop State.NORMAL (c :: rest) tokens current =
      tokenizeLoop State.NORMAL rest tokens (current ++ [c]) := by
  obtain ⟨h1, h2, h3, h4⟩ := (plainChar_iff c).1 hc
  cases rest <;> simp [tokenizeLoop, h1, h2, h3, h4]

/-- In the unquoted state a run of plain characters is appended to `current`. -/
theorem loop_plain (w : Str) (hw : ∀ c ∈ w, plainChar c = true) (rest : Str)
    (tokens : List Str) (current : Str) :
    tokenizeLoop State.NORMAL (w ++ rest) tokens current =
      tokenizeLoop State.NORMAL rest tokens (current ++ w) := by
  induction w generalizing current with
  | nil => simp
  | cons c w ih =>
    have hc : plainChar c = true := hw c (List.mem_cons_self c w)
    have hw2 : ∀ d ∈ w, plainChar d = true := fun d hd => hw d (List.mem_cons_of_mem c hd)
    rw [List.cons_append, loop_plainChar c hc, ih hw2]
    simp

theorem isspace_SPACE : isspace SPACE = true := by decide

/-- In the unquoted state a space after a non-empty `current` pushes it. -/
theorem loop_space_flush (rest : Str) (tokens : List Str) (current : Str)
    (h : current ≠ []) :
    tokenizeLoop State.NORMAL (SPACE :: rest) tokens current =
      tokenizeLoop State.NORMAL rest (tokens ++ [current]) [] := by
  cases rest <;> simp [tokenizeLoop, isspace_SPACE, h]

/-- In the unquoted state a space with an empty `current` is skipped. -/
theorem loop_space_skip (rest : Str) (tokens : List Str) :
    tokenizeLoop State.NORMAL (SPACE :: rest) tokens [] =
      tokenizeLoop State.NORMAL rest tokens [] := by
  cases rest <;> simp [tokenizeLoop, isspace_SPACE]

/-- In the unquoted state a run of spaces with an empty `current` is skipped. -/
theorem loop_spaces_skip (n : Nat) (rest : Str) (tokens : List Str) :
    tokenizeLoop State.NORMAL (List.replicate n SPACE ++ rest) tokens [] =
      tokenizeLoop State.NORMAL rest tokens [] := by
  induction n with
  | zero => simp
  | succ n ih => rw [List.replicate_succ, List.cons_append, loop_space_skip, ih]

/-- A run of at least one space after a non-empty `current` pushes it. -/
theorem loop_spaces_flush (n : Nat) (hn : 1 ≤ n) (rest : Str) (tokens : List Str)
    (current : Str) (h : current ≠ []) :
    tokenizeLoop State.NORMAL (List.replicate n SPACE ++ rest) tokens current =
      tokenizeLoop State.NORMAL rest (tokens ++ [current]) [] := by
  obtain ⟨m, rfl⟩ : ∃ m, n = m + 1 := ⟨n - 1, by omega⟩
  rw [List.replicate_succ, List.cons_append, loop_space_flush _ _ _ h, loop_spaces_skip]

/-- The loop on plain words separated by runs of spaces, started with an
empty `current`: every word becomes one token. -/
theorem finish_loop_joinRuns (w : Str) (rest : List (Nat × Str)) (hw : plainWord w)
    (hrest : ∀ p ∈ rest, 1 ≤ p.1 ∧ plainWord p.2) (tokens : List Str) :
    finish (tokenizeLoop State.NORMAL (joinRuns w rest) tokens []) =
      tokens ++ w :: rest.map Prod.snd := by
  induction rest generalizing w tokens with
  | nil =>
    have h := loop_plain w hw.2 [] tokens []
    simp only [List.append_nil, List.nil_append] at h
    simp [joinRuns, h, finish, tokenizeLoop, hw.1]
  | cons p rest ih =>
    obtain ⟨n, v⟩ := p
    have hp := hrest (n, v) (List.mem_cons_self _ _)
    have hrest2 : ∀ q ∈ rest, 1 ≤ q.1 ∧ plainWord q.2 :=
      fun q hq => hrest q (List.mem_cons_of_mem _ hq)
    simp only [joinRuns, List.append_assoc]
    rw [loop_plain w hw.2, List.nil_append, loop_spaces_flush n hp.1 _ _ _ hw.1,
      ih v hp.2 hrest2]
    simp

/-- Joining with single spaces is joining with runs of length one. -/
theorem joinSpaces_eq_joinRuns (w : Str) (rest : List Str) :
    joinSpaces (w :: rest) = joinRuns w (rest.map (fun v => (1, v))) := by
  induction rest generalizing w with
  | nil => rfl
  | cons v rest ih => simp [joinSpaces, joinRuns, ih v]

/-- The tokens of plain words separated by runs of at least one space. -/
theorem tokenize_joinRuns (w : Str) (rest : List (Nat × Str)) (hw : plainWord w)
    (hrest : ∀ p ∈ rest, 1 ≤ p.1 ∧ plainWord p.2) :
    tokenize (joinRuns w rest) = w :: rest.map Prod.snd := by
  rw [tokenize_eq_finish, finish_loop_joinRuns w rest hw hrest]
  simp

/-- The tokens of plain words separated by single spaces. -/
theorem tokenize_joinSpaces (w : Str) (rest : List Str) (hw : plainWord w)
    (hrest : ∀ v ∈ rest, plainWord v) :
    tokenize (joinSpaces (w :: rest)) = w :: rest := by
  rw [joinSpaces_eq_joinRuns, tokenize_joinRuns w _ hw]
  · simp [Function.comp_def]
  · intro p hp
    obtain ⟨v, hv, rfl⟩ := List.mem_map.1 hp
    exact ⟨le_refl 1, hrest v hv⟩

/-- C1. For every non-empty list of plain words (each word non-empty, without
white-space character, single quote, double quote or backslash), `tokenize`
applied to the words joined by single spaces returns exactly that list of
words, in the same order. -/
theorem tokenize_roundtrip (words : List Str) (hne : words ≠ [])
    (hplain : ∀ w ∈ words, plainWord w) :
    tokenize (joinSpaces words) = words := by
  cases words with
  | nil => exact absurd rfl hne
  | cons w rest =>
    exact tokenize_joinSpaces w rest (hplain w (List.mem_cons_self _ _))
      (fun v hv => hplain v (List.mem_cons_of_mem _ hv))

/-- C1 at the words `echo`, `hello`, `world`. -/
theorem tokenize_roundtrip_witness :
    tokenize "echo hello world".toList = ["echo".toList, "hello".toList, "world".toList] :=
  tokenize_roundtrip ["echo".toList, "hello".toList, "world".toList] (by decide) (by decide)

/-- C2. The three documented inputs: the 7-character line `'a b' c` gives the
tokens `a b` and `c`; the 6-character line double quote, `a`, backslash,
double quote, `b`, double quote gives the single token `a"b`; the 4-character
line `a`, backslash, space, `b` gives the single token `a b`. -/
theorem tokenize_quote_transparency :
    tokenize [SQUOTE, 'a', SPACE, 'b', SQUOTE, SPACE, 'c'] = [['a', SPACE, 'b'], ['c']] ∧
    tokenize [DQUOTE, 'a', BACKSLASH, DQUOTE, 'b', DQUOTE] = [['a', DQUOTE, 'b']] ∧
    tokenize ['a', BACKSLASH, SPACE, 'b'] = [['a', SPACE, 'b']] := by
  decide

/-- C3. For plain words and separators that are runs of one or more spaces,
`tokenize` of the words joined by those runs equals `tokenize` of the same
words joined by single spaces. -/
theorem tokenize_whitespace_collapse (w : Str) (rest : List (Nat × Str))
    (hw : plainWord w) (hrest : ∀ p ∈ rest, 1 ≤ p.1 ∧ plainWord p.2) :
    tokenize (joinRuns w rest) = tokenize (joinSpaces (w :: rest.map Prod.snd)) := by
  rw [tokenize_joinRuns w rest hw hrest, tokenize_joinSpaces w _ hw]
  intro u hu
  obtain ⟨p, hp, rfl⟩ := List.mem_map.1 hu
  exact (hrest p hp).2

/-- C3 at `ls`, three spaces, `-l`, one space, `x`. -/
theorem tokenize_whitespace_collapse_witness :
    tokenize "ls   -l x".toList = tokenize "ls -l x".toList :=
  tokenize_whitespace_collapse "ls".toList [(3, "-l".toList), (1, "x".toList)]
    (by decide) (by decide)

/-- C10. For every character `c`, `tokenize` of the 4-character line double
quote, backslash, `c`, double quote returns the one-character token `c` when
`c` is a backslash, a dollar sign, a double quote or a newline, and the
two-character token backslash, `c` for every other `c`. -/
theorem tokenize_double_quoted_escape (c : Char) :
    tokenize [DQUOTE, BACKSLASH, c, DQUOTE] =
      if c = BACKSLASH ∨ c = DOLLAR ∨ c = DQUOTE ∨ c = NEWLINE then [[c]]
      else [[BACKSLASH, c]] := by
  have h1 : isspace DQUOTE = false := by decide
  have h2 : DQUOTE ≠ BACKSLASH := by decide
  have h3 : DQUOTE ≠ SQUOTE := by decide
  have h4 : BACKSLASH ≠ DQUOTE := by decide
  by_cases h : c = BACKSLASH ∨ c = DOLLAR ∨ c = DQUOTE ∨ c = NEWLINE
  · simp [tokenize, tokenizeLoop, h1, h2, h3, h4, h]
  · have h5 := h
    simp only [not_or] at h5
    simp [tokenize, tokenizeLoop, h1, h2, h3, h4, h5.1, h5.2.1, h5.2.2.1, h5.2.2.2]

/-! ## The completion engine -/

theorem find_first_of_split (ft rem : Str) (hft : noBlank ft)
    (hrem : blankHead rem = true) :
    find_first_of [SPACE, TAB] (ft ++ rem) =
      if rem = [] then none else some ft.length := by
  induction ft with
  | nil =>
    cases rem with
    | nil => simp [find_first_of]
    | cons c r =>
      have hc : c = SPACE ∨ c = TAB := by simpa [blankHead] using hrem
      simp [find_first_of, hc]
  | cons a ft ih =>
    have ha := hft a (List.mem_cons_self a ft)
    have hft2 : noBlank ft := fun c hc => hft c (List.mem_cons_of_mem a hc)
    have h := ih hft2
    by_cases hr : rem = []
    · simp only [hr, if_true, List.append_nil] at h ⊢
      simp [find_first_of, ha.1, ha.2, h]
    · simp only [hr, if_false] at h ⊢
      simp [find_first_of, ha.1, ha.2, h]

/-- The split of `handleTabPress` returns the part before the first space or
tab. -/
theorem firstTokenOf_split (ft rem : Str) (hft : noBlank ft)
    (hrem : blankHead rem = true) : firstTokenOf (ft ++ rem) = ft := by
  unfold firstTokenOf
  rw [find_first_of_split ft rem hft hrem]
  by_cases hr : rem = []
  · simp [hr]
  · simp [hr]

/-- The split of `handleTabPress` returns the part from the first space or
tab on. -/
theorem remainderOf_split (ft rem : Str) (hft : noBlank ft)
    (hrem : blankHead rem = true) : remainderOf (ft ++ rem) = rem := by
  unfold remainderOf
  rw [find_first_of_split ft rem hft hrem]
  by_cases hr : rem = []
  · simp [hr]
  · simp [hr]

/-- The test of `scanEntry` on the file name is the literal-start relation. -/
theorem take_eq_iff_isPrefix (tok n : Str) :
    (¬ n.length < tok.length ∧ n.take tok.length = tok) ↔ tok <+: n := by
  constructor
  · rintro ⟨_, h⟩
    exact List.prefix_iff_eq_take.2 h.symm
  · intro h
    exact ⟨Nat.not_lt.2 h.length_le, (List.prefix_iff_eq_take.1 h).symm⟩

theorem mem_scanEntry (tok : Str) (cands : List Str) (e : DirEntry) (n : Str) :
    n ∈ scanEntry tok cands e ↔
      n ∈ cands ∨ (e.filename = n ∧ e.is_regular_file = true ∧ e.executable = true ∧
        tok <+: n) := by
  have hp := take_eq_iff_isPrefix tok e.filename
  unfold scanEntry
  split_ifs with h1 h2 h3 h4 h5
  · have h1b : e.is_regular_file = false := by simpa using h1
    constructor
    · exact Or.inl
    · rintro (h | ⟨_, h, _⟩)
      · exact h
      · rw [h1b] at h
        exact absurd h (by decide)
  · constructor
    · exact Or.inl
    · rintro (h | ⟨rfl, _, _, h⟩)
      · exact h
      · exact absurd h2 (hp.2 h).1
  · constructor
    · exact Or.inl
    · rintro (h | ⟨rfl, _⟩)
      · exact h
      · exact h5
  · have hpre : tok <+: e.filename := hp.1 ⟨h2, h3⟩
    rw [List.mem_append, List.mem_singleton]
    constructor
    · rintro (h | rfl)
      · exact Or.inl h
      · exact Or.inr ⟨rfl, by simpa using h1, h4, hpre⟩
    · rintro (h | ⟨rfl, _⟩)
      · exact Or.inl h
      · exact Or.inr rfl
  · constructor
    · exact Or.inl
    · rintro (h | ⟨_, _, h, _⟩)
      · exact h
      · exact absurd h h4
  · constructor
    · exact Or.inl
    · rintro (h | ⟨rfl, _, _, h⟩)
      · exact h
      · exact absurd (hp.2 h).2 h3

theorem nodup_scanEntry (tok : Str) (cands : List Str) (e : DirEntry)
    (h : cands.Nodup) : (scanEntry tok cands e).Nodup := by
  unfold scanEntry
  split_ifs with h1 h2 h3 h4 h5 <;> try exact h
  exact List.Nodup.append h (List.nodup_singleton _) (by simpa using h5)

theorem mem_scanDir (tok : Str) (dir : List DirEntry) (cands : List Str) (n : Str) :
    n ∈ dir.foldl (scanEntry tok) cands ↔
      n ∈ cands ∨ ∃ e ∈ dir, e.filename = n ∧ e.is_regular_file = true ∧
        e.executable = true ∧ tok <+: n := by
  induction dir generalizing cands with
  | nil => simp
  | cons e dir ih =>
    rw [List.foldl_cons, ih, mem_scanEntry]
    simp only [List.mem_cons, exists_eq_or_imp]
    tauto

theorem nodup_scanDir (tok : Str) (dir : List DirEntry) (cands : List Str)
    (h : cands.Nodup) : (dir.foldl (scanEntry tok) cands).Nodup := by
  induction dir generalizing cands with
  | nil => exact h
  | cons e dir ih => exact ih _ (nodup_scanEntry tok cands e h)

theorem mem_scanEnv (tok : Str) (env : PathEnv) (cands : List Str) (n : Str) :
    n ∈ env.foldl (fun cs dir => dir.foldl (scanEntry tok) cs) cands ↔
      n ∈ cands ∨ isCandidate env tok n := by
  induction env generalizing cands with
  | nil => simp [isCandidate]
  | cons dir env ih =>
    have hcons : isCandidate (dir :: env) tok n ↔
        (∃ e ∈ dir, e.filename = n ∧ e.is_regular_file = true ∧ e.executable = true ∧
          tok <+: n) ∨ isCandidate env tok n := by
      unfold isCandidate
      simp only [List.mem_cons, exists_eq_or_imp]
    rw [List.foldl_cons, ih, mem_scanDir, hcons, or_assoc]

theorem nodup_scanEnv (tok : Str) (env : PathEnv) (cands : List Str)
    (h : cands.Nodup) :
    (env.foldl (fun cs dir => dir.foldl (scanEntry tok) cs) cands).Nodup := by
  induction env generalizing cands with
  | nil => exact h
  | cons dir env ih => exact ih _ (nodup_scanDir tok dir cands h)

/-- The names collected are the candidate names of the environment. -/
theorem mem_collectCandidates (env : PathEnv) (tok n : Str) :
    n ∈ collectCandidates env tok ↔ isCandidate env tok n := by
  unfold collectCandidates
  rw [mem_scanEnv]
  simp

/-- No name is collected twice. -/
theorem nodup_collectCandidates (env : PathEnv) (tok : Str) :
    (collectCandidates env tok).Nodup :=
  nodup_scanEnv tok env [] List.nodup_nil

theorem collectCandidates_eq_nil (env : PathEnv) (tok : Str)
    (h : ∀ n, ¬ isCandidate env tok n) : collectCandidates env tok = [] := by
  apply List.eq_nil_iff_forall_not_mem.2
  intro n hn
  exact h n ((mem_collectCandidates env tok n).1 hn)

theorem collectCandidates_eq_singleton (env : PathEnv) (tok name : Str)
    (h : ∀ n, isCandidate env tok n ↔ n = name) :
    collectCandidates env tok = [name] := by
  have hmem : ∀ n, n ∈ collectCandidates env tok ↔ n = name := fun n =>
    (mem_collectCandidates env tok n).trans (h n)
  have hnd := nodup_collectCandidates env tok
  generalize collectCandidates env tok = l at hmem hnd
  match l, hmem, hnd with
  | [], hmem, _ => exact absurd ((hmem name).2 rfl) (List.not_mem_nil _)
  | [a], hmem, _ =>
    have : a = name := (hmem a).1 (List.mem_singleton_self a)
    rw [this]
  | a :: b :: l, hmem, hnd =>
    have ha : a = name := (hmem a).1 (List.mem_cons_self _ _)
    have hb : b = name := (hmem b).1 (List.mem_cons_of_mem _ (List.mem_cons_self _ _))
    have hab : a ≠ b := by
      intro hab
      have := (List.nodup_cons.1 hnd).1
      exact this (hab ▸ List.mem_cons_self _ _)
    exact absurd (ha.trans hb.symm) hab

theorem sort_eq_nil_iff (l : List Str) : sort l = [] ↔ l = [] := by
  rw [← List.length_eq_zero, ← List.length_eq_zero (l := l)]
  unfold sort
  rw [List.length_insertionSort]

/-- The branch of `handleTabPress` taken when `candidates` is empty. -/
theorem handleTabPress_of_no_candidate (env : PathEnv) (st : TabState) (ft rem : Str)
    (hne : ft ≠ []) (hft : noBlank ft) (hrem : blankHead rem = true)
    (hnone : ∀ n, ¬ isCandidate env ft n) :
    handleTabPress env st (ft ++ rem) =
      { input := ft ++ rem, out := [BELL], state := updatePress st ft } := by
  unfold handleTabPress
  simp only [firstTokenOf_split ft rem hft hrem, collectCandidates_eq_nil env ft hnone]
  simp [hne]

/-- The branch of `handleTabPress` taken when the common start of the
candidates is longer than the first token. -/
theorem handleTabPress_of_longer (env : PathEnv) (st : TabState) (ft rem : Str)
    (hne : ft ≠ []) (hft : noBlank ft) (hrem : blankHead rem = true)
    (hC : sort (collectCandidates env ft) ≠ [])
    (hL : ft.length <
      (longestCommonPrefix (sort (collectCandidates env ft))).length) :
    handleTabPress env st (ft ++ rem) =
      { input := longestCommonPrefix (sort (collectCandidates env ft)) ++
          (if (sort (collectCandidates env ft)).length = 1 ∧ rem = []
            then [SPACE] else []) ++ rem
        out := (longestCommonPrefix (sort (collectCandidates env ft))).drop ft.length ++
          (if (sort (collectCandidates env ft)).length = 1 ∧ rem = []
            then [SPACE] else [])
        state := TabState.init } := by
  have hC2 : collectCandidates env ft ≠ [] := fun h => hC ((sort_eq_nil_iff _).2 h)
  unfold handleTabPress
  simp only [firstTokenOf_split ft rem hft hrem, remainderOf_split ft rem hft hrem]
  simp [hne, hC2, hL]

/-- C4 (the code departs from it). With the executables `foo`, `food` and
`fool` and the line `foo`, starting from the initial press state: the sorted
candidates are `foo`, `food`, `fool` and their common start is `foo`; the
first press writes the bell only, keeps the line, and leaves the press state
reset; so the second press on the same line writes the bell again, and two
presses write two bells and no listing.  The listing
`foo  food  fool` and the redrawn `$ foo` come only for a press that finds the
press state `(foo, 1)`. -/
theorem handleTabPress_foo_second_press :
    sort (collectCandidates fooEnv "foo".toList) =
      ["foo".toList, "food".toList, "fool".toList] ∧
    longestCommonPrefix (sort (collectCandidates fooEnv "foo".toList)) = "foo".toList ∧
    handleTabPress fooEnv TabState.init "foo".toList =
      { input := "foo".toList, out := [BELL], state := TabState.init } ∧
    tabPresses fooEnv 2 TabState.init "foo".toList =
      { input := "foo".toList, out := [BELL, BELL], state := TabState.init } ∧
    handleTabPress fooEnv { last_tab_token := "foo".toList, tab_press_count := 1 }
        "foo".toList =
      { input := "foo".toList
        out := [NEWLINE] ++ "foo  food  fool".toList ++ [NEWLINE] ++ "$ foo".toList
        state := TabState.init } := by
  decide

/-- C5 as stated fails at two inputs.  With the single executable `ls` and
the line `ls`, exactly one name starts with the token, yet the line stays
`ls` and does not end with a space.  With the single executable named `ab`
followed by a space and the line `a`, exactly one name starts with the token,
and the line becomes `ab` followed by two spaces. -/
theorem single_candidate_counterexample :
    (noBlank "ls".toList ∧ "ls".toList ≠ [] ∧
      (∀ n, isCandidate lsEnv "ls".toList n ↔ n = "ls".toList) ∧
      (handleTabPress lsEnv TabState.init "ls".toList).input = "ls".toList ∧
      endsWithOneSpace (handleTabPress lsEnv TabState.init "ls".toList).input = false) ∧
    (noBlank ['a'] ∧ ['a'] ≠ [] ∧
      (∀ n, isCandidate abEnv ['a'] n ↔ n = ['a', 'b', SPACE]) ∧
      (handleTabPress abEnv TabState.init ['a']).input = ['a', 'b', SPACE, SPACE] ∧
      endsWithOneSpace (handleTabPress abEnv TabState.init ['a']).input = false) := by
  refine ⟨⟨by decide, by decide, ?_, by decide, by decide⟩,
    ⟨by decide, by decide, ?_, by decide, by decide⟩⟩
  · intro n
    rw [← mem_collectCandidates, show collectCandidates lsEnv "ls".toList = ["ls".toList] by decide]
    exact List.mem_singleton
  · intro n
    rw [← mem_collectCandidates, show collectCandidates abEnv ['a'] = [['a', 'b', SPACE]] by decide]
    exact List.mem_singleton

/-- C5, amended.  For a line that is a non-empty first token without space or
tab, every prior press state and every environment in which exactly one
executable name starts with the token: when that name is strictly longer
than the token, after `handleTabPress` the line is the name followed by one
space and the press state is reset to (empty, 0); that line ends with exactly
one trailing space if and only if the name does not itself end with a
space. -/
theorem handleTabPress_single_candidate (env : PathEnv) (st : TabState) (ft name : Str)
    (hne : ft ≠ []) (hft : noBlank ft)
    (huniq : ∀ n, isCandidate env ft n ↔ n = name)
    (hlen : ft.length < name.length) :
    (handleTabPress env st ft).input = name ++ [SPACE] ∧
    (handleTabPress env st ft).state = TabState.init ∧
    (endsWithOneSpace (handleTabPress env st ft).input = true ↔
      name.getLast? ≠ some SPACE) := by
  have hc : collectCandidates env ft = [name] :=
    collectCandidates_eq_singleton env ft name huniq
  have hs : sort (collectCandidates env ft) = [name] := by rw [hc]; rfl
  have hl : longestCommonPrefix (sort (collectCandidates env ft)) = name := by
    rw [hs]; rfl
  have h := handleTabPress_of_longer env st ft [] hne hft rfl (by rw [hs]; simp)
    (by rw [hl]; exact hlen)
  rw [List.append_nil] at h
  rw [h, hl, hs]
  refine ⟨by simp, rfl, ?_⟩
  simp [endsWithOneSpace]

/-- C5, amended, at the line `l` with the single executable `ls`: the line
becomes `ls` and a space, the press state is reset, and since `ls` does not
end with a space the line ends with exactly one. -/
theorem handleTabPress_single_candidate_witness :
    (handleTabPress lsEnv { last_tab_token := ['l'], tab_press_count := 1 } ['l']).input =
      ['l', 's', SPACE] ∧
    (handleTabPress lsEnv { last_tab_token := ['l'], tab_press_count := 1 } ['l']).state =
      TabState.init ∧
    endsWithOneSpace
      (handleTabPress lsEnv { last_tab_token := ['l'], tab_press_count := 1 } ['l']).input =
        true :=
  have h := handleTabPress_single_candidate lsEnv
    { last_tab_token := ['l'], tab_press_count := 1 } ['l'] "ls".toList
    (by decide) (by decide)
    (fun n => by
      rw [← mem_collectCandidates, show collectCandidates lsEnv ['l'] = ["ls".toList] by decide]
      exact List.mem_singleton)
    (by decide)
  ⟨h.1, h.2.1, h.2.2.2 (by decide)⟩

/-- C6. For a line whose first token is non-empty and starts no executable
name, whatever the prior press state and whatever the number `n` of tab
presses already made on it: those `n` calls wrote `n` bells and nothing else
and left the line as it was, and the next call again writes exactly one bell
and leaves the line unchanged. -/
theorem handleTabPress_no_candidate (env : PathEnv) (ft rem : Str)
    (hne : ft ≠ []) (hft : noBlank ft) (hrem : blankHead rem = true)
    (hnone : ∀ n, ¬ isCandidate env ft n) (n : Nat) (st : TabState) :
    (tabPresses env n st (ft ++ rem)).input = ft ++ rem ∧
    (tabPresses env n st (ft ++ rem)).out = List.replicate n BELL ∧
    (handleTabPress env (tabPresses env n st (ft ++ rem)).state
      (tabPresses env n st (ft ++ rem)).input).out = [BELL] ∧
    (handleTabPress env (tabPresses env n st (ft ++ rem)).state
      (tabPresses env n st (ft ++ rem)).input).input = ft ++ rem := by
  have key : (tabPresses env n st (ft ++ rem)).input = ft ++ rem ∧
      (tabPresses env n st (ft ++ rem)).out = List.replicate n BELL := by
    induction n with
    | zero => exact ⟨rfl, rfl⟩
    | succ n ih =>
      simp only [tabPresses]
      rw [ih.1, handleTabPress_of_no_candidate env _ ft rem hne hft hrem hnone, ih.2]
      exact ⟨rfl, (List.replicate_succ' n BELL).symm⟩
  refine ⟨key.1, key.2, ?_, ?_⟩
  · rw [key.1, handleTabPress_of_no_candidate env _ ft rem hne hft hrem hnone]
  · rw [key.1, handleTabPress_of_no_candidate env _ ft rem hne hft hrem hnone]

/-- C6 at the line `xy -a` with the single executable `ls`, after three
presses. -/
theorem handleTabPress_no_candidate_witness :
    (tabPresses lsEnv 3 TabState.init "xy -a".toList).input = "xy -a".toList ∧
    (tabPresses lsEnv 3 TabState.init "xy -a".toList).out = [BELL, BELL, BELL] ∧
    (handleTabPress lsEnv (tabPresses lsEnv 3 TabState.init "xy -a".toList).state
      (tabPresses lsEnv 3 TabState.init "xy -a".toList).input).out = [BELL] ∧
    (handleTabPress lsEnv (tabPresses lsEnv 3 TabState.init "xy -a".toList).state
      (tabPresses lsEnv 3 TabState.init "xy -a".toList).input).input = "xy -a".toList :=
  handleTabPress_no_candidate lsEnv "xy".toList " -a".toList (by decide) (by decide)
    (by decide)
    (fun n h => by
      have hm := (mem_collectCandidates lsEnv "xy".toList n).2 h
      rw [show collectCandidates lsEnv "xy".toList = [] by decide] at hm
      exact absurd hm (List.not_mem_nil n))
    3 TabState.init

/-- C7. Let the line be `ft ++ rem`, split at its first space or tab, with
`ft` non-empty; let `C` be the sorted candidates for `ft`, non-empty, and `L`
their longest common start.  If `L` is strictly longer than `ft`, then after
`handleTabPress` the line is `L ++ sp ++ rem`, the terminal output is `L`
without its first `len ft` characters followed by `sp`, where `sp` is one
space when `C` has exactly one element and `rem` is empty and is empty
otherwise, and the press state is reset to (empty, 0). -/
theorem handleTabPress_expansion (env : PathEnv) (st : TabState) (ft rem : Str)
    (C : List Str) (L sp : Str)
    (hne : ft ≠ []) (hft : noBlank ft) (hrem : blankHead rem = true)
    (hCdef : C = sort (collectCandidates env ft)) (hC : C ≠ [])
    (hLdef : L = longestCommonPrefix C) (hL : ft.length < L.length)
    (hsp : sp = if C.length = 1 ∧ rem = [] then [SPACE] else []) :
    handleTabPress env st (ft ++ rem) =
      { input := L ++ sp ++ rem, out := L.drop ft.length ++ sp, state := TabState.init } := by
  subst hCdef hLdef hsp
  exact handleTabPress_of_longer env st ft rem hne hft hrem hC hL

/-- C7 at the line `fo x` with the executables `foo`, `food`, `fool`. -/
theorem handleTabPress_expansion_witness :
    handleTabPress fooEnv TabState.init "fo x".toList =
      { input := "foo x".toList, out := ['o'], state := TabState.init } :=
  handleTabPress_expansion fooEnv TabState.init "fo".toList " x".toList
    ["foo".toList, "food".toList, "fool".toList] "foo".toList []
    (by decide) (by decide) (by decide) (by decide) (by decide) (by decide) (by decide)
    (by decide)

/-! ## The line editor -/

/-- C8. For every `n`, feeding `n` characters of code 127 to the step of the
line editor, starting from an empty buffer, leaves the buffer empty and
writes nothing to the terminal: the state is the one it started from. -/
theorem backspace_on_empty_buffer (env : PathEnv) (n : Nat) (out : Str) (tab : TabState) :
    (List.replicate n DEL).foldl (editorStep env) { input := [], out := out, tab := tab } =
      { input := [], out := out, tab := tab } := by
  have hd : DEL ≠ TAB := by decide
  induction n with
  | zero => rfl
  | succ n ih =>
    rw [List.replicate_succ, List.foldl_cons]
    have hstep : editorStep env { input := [], out := out, tab := tab } DEL =
        { input := [], out := out, tab := tab } := by
      simp [editorStep, hd]
    rw [hstep, ih]

/-- The step of the line editor on a character that is neither a tab nor the
character of code 127: it is appended to the buffer and echoed. -/
theorem editorStep_ordinary (env : PathEnv) (s : EditorState) (c : Char)
    (h1 : c ≠ TAB) (h2 : c ≠ DEL) :
    editorStep env s c = { s with input := s.input ++ [c], out := s.out ++ [c] } := by
  simp [editorStep, h1, h2]

theorem readInput_ordinary (env : PathEnv) (cs more : List Char)
    (hcs : ∀ c ∈ cs, c ≠ NEWLINE ∧ c ≠ TAB ∧ c ≠ DEL) (s : EditorState) :
    readInputWithTabSupport env (cs ++ NEWLINE :: more) s =
      some { s with input := s.input ++ cs, out := s.out ++ cs ++ [NEWLINE] } := by
  induction cs generalizing s with
  | nil => simp [readInputWithTabSupport]
  | cons c cs ih =>
    have hc := hcs c (List.mem_cons_self c cs)
    have hcs2 : ∀ d ∈ cs, d ≠ NEWLINE ∧ d ≠ TAB ∧ d ≠ DEL :=
      fun d hd => hcs d (List.mem_cons_of_mem c hd)
    rw [List.cons_append, readInputWithTabSupport, if_neg hc.1,
      editorStep_ordinary env s c hc.2.1 hc.2.2, ih hcs2]
    simp

/-- C9. For every sequence `cs` of input characters none of which is a
newline, a tab or the character of code 127, followed by a newline (and by
whatever else, which stays unread), the line editor started on an empty
buffer returns: the line is exactly `cs` and the terminal output is exactly
`cs` followed by one newline; the press state is untouched. -/
theorem readInput_echo_and_return (env : PathEnv) (cs more : List Char) (tab : TabState)
    (hcs : ∀ c ∈ cs, c ≠ NEWLINE ∧ c ≠ TAB ∧ c ≠ DEL) :
    readInputWithTabSupport env (cs ++ NEWLINE :: more) { input := [], out := [], tab := tab } =
      some { input := cs, out := cs ++ [NEWLINE], tab := tab } := by
  rw [readInput_ordinary env cs more hcs]
  simp

/-- C9 at the characters `echo hi`. -/
theorem readInput_echo_and_return_witness :
    readInputWithTabSupport fooEnv ("echo hi".toList ++ NEWLINE :: "pwd".toList)
        { input := [], out := [], tab := TabState.init } =
      some { input := "echo hi".toList, out := "echo hi".toList ++ [NEWLINE],
             tab := TabState.init } :=
  readInput_echo_and_return fooEnv "echo hi".toList "pwd".toList TabState.init (by decide)

/-! ## The tokenizer: quotes and escapes -/

/-- In the unquoted state a single quote opens the single-quoted state. -/
theorem loop_open_single (rest : Str) (tokens : List Str) (current : Str) :
    tokenizeLoop State.NORMAL (SQUOTE :: rest) tokens current =
      tokenizeLoop State.IN_SINGLE rest tokens current := by
  have h1 : isspace SQUOTE = false := by decide
  have h2 : SQUOTE ≠ BACKSLASH := by decide
  cases rest <;> simp [tokenizeLoop, h1, h2]

/-- In the unquoted state a double quote opens the double-quoted state. -/
theorem loop_open_double (rest : Str) (tokens : List Str) (current : Str) :
    tokenizeLoop State.NORMAL (DQUOTE :: rest) tokens current =
      tokenizeLoop State.IN_DOUBLE rest tokens current := by
  have h1 : isspace DQUOTE = false := by decide
  have h2 : DQUOTE ≠ BACKSLASH := by decide
  have h3 : DQUOTE ≠ SQUOTE := by decide
  cases rest <;> simp [tokenizeLoop, h1, h2, h3]

/-- In the unquoted state a backslash copies the character after it. -/
theorem loop_backslash (c : Char) (rest : Str) (tokens : List Str) (current : Str) :
    tokenizeLoop State.NORMAL (BACKSLASH :: c :: rest) tokens current =
      tokenizeLoop State.NORMAL rest tokens (current ++ [c]) := by
  have h1 : isspace BACKSLASH = false := by decide
  simp [tokenizeLoop, h1]

/-- In the single-quoted state a single quote closes the state. -/
theorem loop_close_single (rest : Str) (tokens : List Str) (current : Str) :
    tokenizeLoop State.IN_SINGLE (SQUOTE :: rest) tokens current =
      tokenizeLoop State.NORMAL rest tokens current := by
  simp [tokenizeLoop]

/-- In the single-quoted state characters other than the single quote are
copied. -/
theorem loop_single_run (s : Str) (hs : SQUOTE ∉ s) (rest : Str) (tokens : List Str)
    (current : Str) :
    tokenizeLoop State.IN_SINGLE (s ++ rest) tokens current =
      tokenizeLoop State.IN_SINGLE rest tokens (current ++ s) := by
  induction s generalizing current with
  | nil => simp
  | cons c s ih =>
    have hc : c ≠ SQUOTE := fun h => hs (h ▸ List.mem_cons_self _ _)
    have hs2 : SQUOTE ∉ s := fun h => hs (List.mem_cons_of_mem _ h)
    rw [List.cons_append, tokenizeLoop, if_neg hc, ih hs2]
    simp

/-- In the double-quoted state a double quote closes the state. -/
theorem loop_close_double (rest : Str) (tokens : List Str) (current : Str) :
    tokenizeLoop State.IN_DOUBLE (DQUOTE :: rest) tokens current =
      tokenizeLoop State.NORMAL rest tokens current := by
  cases rest <;> simp [tokenizeLoop]

/-- In the double-quoted state characters other than the double quote and
the backslash are copied. -/
theorem loop_double_run (s : Str) (hq : DQUOTE ∉ s) (hb : BACKSLASH ∉ s) (rest : Str)
    (tokens : List Str) (current : Str) :
    tokenizeLoop State.IN_DOUBLE (s ++ rest) tokens current =
      tokenizeLoop State.IN_DOUBLE rest tokens (current ++ s) := by
  induction s generalizing current with
  | nil => simp
  | cons c s ih =>
    have hc : c ≠ DQUOTE := fun h => hq (h ▸ List.mem_cons_self _ _)
    have hc2 : c ≠ BACKSLASH := fun h => hb (h ▸ List.mem_cons_self _ _)
    have hq2 : DQUOTE ∉ s := fun h => hq (List.mem_cons_of_mem _ h)
    have hb2 : BACKSLASH ∉ s := fun h => hb (List.mem_cons_of_mem _ h)
    have hstep : tokenizeLoop State.IN_DOUBLE (c :: (s ++ rest)) tokens current =
        tokenizeLoop State.IN_DOUBLE (s ++ rest) tokens (current ++ [c]) := by
      cases (s ++ rest) <;> simp [tokenizeLoop, hc, hc2]
    rw [List.cons_append, hstep, ih hq2 hb2]
    simp

theorem loop_nil (st : State) (tokens : List Str) (current : Str) :
    tokenizeLoop st [] tokens current = (tokens, current) := by
  cases st <;> simp [tokenizeLoop]

/-- C11. For all strings `u` and `w` of plain characters (possibly empty) and
every string `s` without a single quote, if `u ++ s ++ w` is not empty then
`tokenize` of `u`, a single quote, `s`, a single quote, `w` is the single
token `u ++ s ++ w`. -/
theorem tokenize_single_quoted (u s w : Str) (hu : plainChars u) (hw : plainChars w)
    (hs : SQUOTE ∉ s) (hne : u ++ s ++ w ≠ []) :
    tokenize (u ++ [SQUOTE] ++ s ++ [SQUOTE] ++ w) = [u ++ s ++ w] := by
  have hloop : tokenizeLoop State.NORMAL (u ++ [SQUOTE] ++ s ++ [SQUOTE] ++ w) [] [] =
      ([], u ++ s ++ w) := by
    have h := loop_plain w hw [] [] (u ++ s)
    rw [List.append_nil] at h
    have e : u ++ [SQUOTE] ++ s ++ [SQUOTE] ++ w = u ++ (SQUOTE :: (s ++ (SQUOTE :: w))) := by
      simp
    rw [e, loop_plain u hu, loop_open_single, loop_single_run s hs, loop_close_single,
      List.nil_append, h, loop_nil]
  rw [tokenize_eq_finish, hloop]
  simp only [finish]
  rw [if_pos hne]
  rfl

/-- C11 at `foo'bar'baz`. -/
theorem tokenize_single_quoted_witness :
    tokenize "foo'bar'baz".toList = ["foobarbaz".toList] :=
  tokenize_single_quoted "foo".toList "bar".toList "baz".toList (by decide) (by decide)
    (by decide) (by decide)

/-- C12. For a quote character `q`, single or double, and every string `s`
that contains neither `q` nor a backslash, `tokenize` of `q` followed by `s`
returns, and returns what it returns when the closing `q` is there: the
single token `s` when `s` is not empty, no token when it is. -/
theorem tokenize_unterminated_quote (q : Char) (s : Str) (hq : q = SQUOTE ∨ q = DQUOTE)
    (hs : q ∉ s) (hb : BACKSLASH ∉ s) :
    tokenize (q :: s) = tokenize (q :: s ++ [q]) ∧
      tokenize (q :: s) = if s = [] then [] else [s] := by
  have hopen : tokenizeLoop State.NORMAL (q :: s) [] [] = ([], s) := by
    rcases hq with rfl | rfl
    · have h := loop_single_run s hs [] [] []
      rw [List.append_nil, List.nil_append] at h
      rw [loop_open_single, h, loop_nil]
    · have h := loop_double_run s hs hb [] [] []
      rw [List.append_nil, List.nil_append] at h
      rw [loop_open_double, h, loop_nil]
  have hclosed : tokenizeLoop State.NORMAL (q :: s ++ [q]) [] [] = ([], s) := by
    rcases hq with rfl | rfl
    · rw [List.cons_append, loop_open_single, loop_single_run s hs, loop_close_single,
        loop_nil]
      simp
    · rw [List.cons_append, loop_open_double, loop_double_run s hs hb, loop_close_double,
        loop_nil]
      simp
  rw [tokenize_eq_finish, tokenize_eq_finish, hopen, hclosed]
  refine ⟨rfl, ?_⟩
  by_cases h : s = [] <;> simp [finish, h]

/-- C12 at a double quote followed by `a b`. -/
theorem tokenize_unterminated_quote_witness :
    tokenize (DQUOTE :: "a b".toList) = tokenize (DQUOTE :: "a b".toList ++ [DQUOTE]) ∧
      tokenize (DQUOTE :: "a b".toList) = ["a b".toList] :=
  tokenize_unterminated_quote DQUOTE "a b".toList (by decide) (by decide) (by decide)

theorem loop_backslashEach (s : Str) (rest : Str) (tokens : List Str) (current : Str) :
    tokenizeLoop State.NORMAL (backslashEach s ++ rest) tokens current =
      tokenizeLoop State.NORMAL rest tokens (current ++ s) := by
  induction s generalizing current with
  | nil => simp [backslashEach]
  | cons c s ih =>
    simp only [backslashEach, List.cons_append]
    rw [loop_backslash, ih]
    simp

/-- C13. For every non-empty string `s`, of any characters, `tokenize` of the
line that has a backslash before every character of `s` is the single token
`s`. -/
theorem tokenize_backslash_each (s : Str) (hne : s ≠ []) :
    tokenize (backslashEach s) = [s] := by
  have h := loop_backslashEach s [] [] []
  rw [List.append_nil, List.nil_append, loop_nil] at h
  rw [tokenize_eq_finish, h]
  simp [finish, hne]

/-- C13 at the string `a`, space, single quote, backslash, `b`. -/
theorem tokenize_backslash_each_witness :
    tokenize [BACKSLASH, 'a', BACKSLASH, SPACE, BACKSLASH, SQUOTE, BACKSLASH, BACKSLASH,
        BACKSLASH, 'b'] = [['a', SPACE, SQUOTE, BACKSLASH, 'b']] :=
  tokenize_backslash_each ['a', SPACE, SQUOTE, BACKSLASH, 'b'] (by decide)

/-- In the unquoted state a white-space character after a non-empty `current`
pushes it. -/
theorem loop_white_flush (c : Char) (hc : isspace c = true) (rest : Str)
    (tokens : List Str) (current : Str) (h : current ≠ []) :
    tokenizeLoop State.NORMAL (c :: rest) tokens current =
      tokenizeLoop State.NORMAL rest (tokens ++ [current]) [] := by
  cases rest <;> simp [tokenizeLoop, hc, h]

/-- C14 as stated fails at the form-feed character: it is not a space, a tab,
a quote or a backslash, yet `a`, form feed, `b` gives the two tokens `a` and
`b`, not one. -/
theorem tokenize_formfeed_counterexample :
    FORMFEED ≠ SPACE ∧ FORMFEED ≠ TAB ∧ FORMFEED ≠ SQUOTE ∧ FORMFEED ≠ DQUOTE ∧
    FORMFEED ≠ BACKSLASH ∧ plainWord ['a'] ∧ plainWord ['b'] ∧
    tokenize (['a'] ++ [FORMFEED] ++ ['b']) = [['a'], ['b']] ∧
    tokenize (['a'] ++ [FORMFEED] ++ ['b']) ≠ [['a'] ++ [FORMFEED] ++ ['b']] := by
  decide

/-- C14, amended.  In the unquoted state the token separators are the
characters `isspace` accepts (space, `\t`, `\n`, `\v`, `\f`, `\r`) and no
others: for all non-empty plain words `u` and `v` and every character `c`,
if `c` is not such a character, a quote or a backslash then
`tokenize (u ++ [c] ++ v)` is the single token `u ++ [c] ++ v`, and if `c` is
such a character it is the two tokens `u`, `v`. -/
theorem tokenize_separator (u v : Str) (hu : plainWord u) (hv : plainWord v) (c : Char) :
    (isspace c = false → c ≠ SQUOTE → c ≠ DQUOTE → c ≠ BACKSLASH →
      tokenize (u ++ [c] ++ v) = [u ++ [c] ++ v]) ∧
    (isspace c = true → tokenize (u ++ [c] ++ v) = [u, v]) := by
  constructor
  · intro h1 h2 h3 h4
    have hc : plainChar c = true := (plainChar_iff c).2 ⟨h1, h2, h3, h4⟩
    have hword : plainWord (u ++ [c] ++ v) := by
      refine ⟨by simp, ?_⟩
      intro d hd
      simp only [List.mem_append, List.mem_singleton] at hd
      rcases hd with (hd | rfl) | hd
      · exact hu.2 d hd
      · exact hc
      · exact hv.2 d hd
    exact tokenize_joinSpaces (u ++ [c] ++ v) [] hword (by simp)
  · intro hc
    have h := loop_plain v hv.2 [] [u] []
    rw [List.append_nil, List.nil_append, loop_nil] at h
    have hloop : tokenizeLoop State.NORMAL (u ++ [c] ++ v) [] [] = ([u], v) := by
      rw [List.append_assoc, loop_plain u hu.2, List.nil_append, List.singleton_append,
        loop_white_flush c hc _ _ _ hu.1, List.nil_append, h]
    rw [tokenize_eq_finish, hloop]
    simp [finish, hv.1]

/-- C14, amended, at `ab`, `-`, `cd` and at `ab`, form feed, `cd`. -/
theorem tokenize_separator_witness :
    tokenize "ab-cd".toList = ["ab-cd".toList] ∧
    tokenize ("ab".toList ++ [FORMFEED] ++ "cd".toList) = ["ab".toList, "cd".toList] :=
  ⟨(tokenize_separator "ab".toList "cd".toList (by decide) (by decide) '-').1
      (by decide) (by decide) (by decide) (by decide),
    (tokenize_separator "ab".toList "cd".toList (by decide) (by decide) FORMFEED).2
      (by decide)⟩

/-- In the unquoted state a white-space character with an empty `current` is
skipped. -/
theorem loop_white_skip (c : Char) (hc : isspace c = true) (rest : Str)
    (tokens : List Str) :
    tokenizeLoop State.NORMAL (c :: rest) tokens [] =
      tokenizeLoop State.NORMAL rest tokens [] := by
  cases rest <;> simp [tokenizeLoop, hc]

/-- In the unquoted state a character that is no white space, backslash or
quote is copied. -/
theorem loop_normal_other (c : Char) (h1 : isspace c = false) (h2 : ¬ c = BACKSLASH)
    (h3 : ¬ c = SQUOTE) (h4 : ¬ c = DQUOTE) (rest : Str) (tokens : List Str)
    (current : Str) :
    tokenizeLoop State.NORMAL (c :: rest) tokens current =
      tokenizeLoop State.NORMAL rest tokens (current ++ [c]) := by
  cases rest <;> simp [tokenizeLoop, h1, h2, h3, h4]

/-- In the double-quoted state a character that is no double quote or
backslash is copied. -/
theorem loop_double_other (c : Char) (h1 : ¬ c = DQUOTE) (h2 : ¬ c = BACKSLASH)
    (rest : Str) (tokens : List Str) (current : Str) :
    tokenizeLoop State.IN_DOUBLE (c :: rest) tokens current =
      tokenizeLoop State.IN_DOUBLE rest tokens (current ++ [c]) := by
  cases rest <;> simp [tokenizeLoop, h1, h2]

/-- The loop never pushes an empty token. -/
theorem loop_tokens_nonempty (st : State) (input : Str) (tokens : List Str)
    (current : Str) (h : ∀ t ∈ tokens, t ≠ []) :
    ∀ t ∈ (tokenizeLoop st input tokens current).1, t ≠ [] := by
  induction st, input, tokens, current using tokenizeLoop.induct
  case case2 c rest tokens current hc hcur ih =>
    rw [loop_white_flush c hc rest tokens current hcur]
    apply ih
    intro t ht
    rcases List.mem_append.1 ht with ht | ht
    · exact h t ht
    · rw [List.mem_singleton.1 ht]
      exact hcur
  all_goals
    simp_all [tokenizeLoop, loop_white_skip, loop_open_single, loop_open_double,
      loop_normal_other, loop_close_double, loop_double_other]

/-- C18. For every input line every token `tokenize` returns is non-empty;
and the line `a`, space, two single quotes, space, `b` (likewise with two
double quotes) gives the tokens `a` and `b` only. -/
theorem tokenize_no_empty_token (input : Str) :
    (∀ t ∈ tokenize input, t ≠ []) ∧
    tokenize ['a', SPACE, SQUOTE, SQUOTE, SPACE, 'b'] = [['a'], ['b']] ∧
    tokenize ['a', SPACE, DQUOTE, DQUOTE, SPACE, 'b'] = [['a'], ['b']] := by
  refine ⟨?_, by decide, by decide⟩
  have hloop := loop_tokens_nonempty State.NORMAL input [] [] (by simp)
  intro t ht
  unfold tokenize at ht
  by_cases hc : (tokenizeLoop State.NORMAL input [] []).2 = []
  · simp only [hc, ne_eq, not_true_eq_false, if_false] at ht
    exact hloop t ht
  · simp only [ne_eq, hc, not_false_eq_true, if_true, List.mem_append,
      List.mem_singleton] at ht
    rcases ht with ht | rfl
    · exact hloop t ht
    · exact hc

/-- C18 at the line `x`, space, two single quotes: its only token `x` is not
empty. -/
theorem tokenize_no_empty_token_witness :
    (['x'] : Str) ≠ [] :=
  (tokenize_no_empty_token ['x', SPACE, SQUOTE, SQUOTE]).1 ['x'] (by decide)

theorem foldl_escapeStep (s : Str) (acc : Str) :
    s.foldl escapeStep acc = acc ++ escapeBody s := by
  induction s generalizing acc with
  | nil => simp [escapeBody]
  | cons c s ih =>
    rw [List.foldl_cons, ih]
    by_cases hc : c = SQUOTE <;> simp [escapeStep, escapeBody, hc]

/-- The result of `shell_escape`: a quote, the body, a quote. -/
theorem shell_escape_eq (s : Str) :
    shell_escape s = SQUOTE :: (escapeBody s ++ [SQUOTE]) := by
  unfold shell_escape
  rw [foldl_escapeStep]
  simp

/-- The scanner, in the single-quoted state, reads the body of an escaped
string and its closing quote back as the string. -/
theorem loop_escapeBody (s : Str) (rest : Str) (tokens : List Str) (current : Str) :
    tokenizeLoop State.IN_SINGLE (escapeBody s ++ SQUOTE :: rest) tokens current =
      tokenizeLoop State.NORMAL rest tokens (current ++ s) := by
  induction s generalizing current with
  | nil => simp [escapeBody, loop_close_single]
  | cons c s ih =>
    by_cases hc : c = SQUOTE
    · subst hc
      simp only [escapeBody, if_true, List.cons_append]
      rw [loop_close_single, loop_backslash, loop_open_single, ih]
      simp
    · simp only [escapeBody, hc, if_false, List.cons_append]
      rw [tokenizeLoop, if_neg hc, ih]
      simp

/-- The scanner reads an escaped string back as the string. -/
theorem loop_shell_escape (s : Str) (rest : Str) (tokens : List Str) (current : Str) :
    tokenizeLoop State.NORMAL (shell_escape s ++ rest) tokens current =
      tokenizeLoop State.NORMAL rest tokens (current ++ s) := by
  rw [shell_escape_eq, List.cons_append, List.append_assoc, List.singleton_append,
    loop_open_single, loop_escapeBody]

theorem finish_loop_escaped (w : Str) (rest : List Str) (hw : w ≠ [])
    (hrest : ∀ v ∈ rest, v ≠ []) (tokens : List Str) :
    finish (tokenizeLoop State.NORMAL (joinSpaces ((w :: rest).map shell_escape)) tokens []) =
      tokens ++ w :: rest := by
  induction rest generalizing w tokens with
  | nil =>
    have h := loop_shell_escape w [] tokens []
    rw [List.append_nil, List.nil_append, loop_nil] at h
    simp only [List.map, joinSpaces]
    rw [h]
    simp [finish, hw]
  | cons v rest ih =>
    have hv := hrest v (List.mem_cons_self _ _)
    have hrest2 : ∀ x ∈ rest, x ≠ [] := fun x hx => hrest x (List.mem_cons_of_mem _ hx)
    have ih2 := ih v hv hrest2 (tokens ++ [w])
    simp only [List.map, joinSpaces] at ih2 ⊢
    rw [List.append_assoc, loop_shell_escape, List.nil_append, List.singleton_append,
      loop_space_flush _ _ _ hw, ih2]
    simp

theorem foldl_full_command (args : List Str) (pre acc : Str) :
    args.foldl (fun acc t => acc ++ ([SPACE] ++ shell_escape t)) (pre ++ acc) =
      pre ++ args.foldl (fun acc t => acc ++ ([SPACE] ++ shell_escape t)) acc := by
  induction args generalizing acc with
  | nil => rfl
  | cons a args ih => rw [List.foldl_cons, List.foldl_cons, List.append_assoc, ih]

/-- The string `main` builds is the escaped tokens joined by single spaces. -/
theorem full_command_eq (cmd : Str) (args : List Str) :
    full_command cmd args = joinSpaces ((cmd :: args).map shell_escape) := by
  induction args generalizing cmd with
  | nil => rfl
  | cons a args ih =>
    have h := ih a
    unfold full_command at h ⊢
    rw [List.foldl_cons, foldl_full_command, foldl_full_command, h]
    simp [joinSpaces]

/-- C19. For every non-empty list `ts` of non-empty strings, of any
characters, `tokenize` applied to the strings `shell_escape t`, `t` in `ts`,
joined by single spaces returns exactly `ts`; and that joined string is the
`full_command` the dispatcher builds from `ts`. -/
theorem tokenize_shell_escape_roundtrip (ts : List Str) (hne : ts ≠ [])
    (hts : ∀ t ∈ ts, t ≠ []) :
    tokenize (joinSpaces (ts.map shell_escape)) = ts ∧
    ∀ cmd args, ts = cmd :: args →
      full_command cmd args = joinSpaces (ts.map shell_escape) := by
  constructor
  · cases ts with
    | nil => exact absurd rfl hne
    | cons w rest =>
      rw [tokenize_eq_finish, finish_loop_escaped w rest (hts w (List.mem_cons_self _ _))
        (fun v hv => hts v (List.mem_cons_of_mem _ hv))]
      simp
  · intro cmd args h
    rw [h]
    exact full_command_eq cmd args

/-- C19 at the tokens `echo`, `it's`, `a b`. -/
theorem tokenize_shell_escape_roundtrip_witness :
    tokenize "'echo' 'it'\\''s' 'a b'".toList =
      ["echo".toList, "it's".toList, "a b".toList] :=
  (tokenize_shell_escape_roundtrip ["echo".toList, "it's".toList, "a b".toList]
    (by decide) (by decide)).1

/-! ## `longestCommonPrefix` -/

theorem take_commonLen_isPrefix_right (a b : Str) : a.take (commonLen a b) <+: b := by
  induction a generalizing b with
  | nil => simp [commonLen]
  | cons x a ih =>
    cases b with
    | nil => simp [commonLen]
    | cons y b =>
      by_cases hxy : x = y
      · subst hxy
        simp only [commonLen, if_true, List.take_succ_cons]
        exact (List.prefix_cons_inj x).2 (ih b)
      · simp [commonLen, hxy]

theorem isPrefix_take_commonLen (p a b : Str) (ha : p <+: a) (hb : p <+: b) :
    p <+: a.take (commonLen a b) := by
  induction p generalizing a b with
  | nil => exact List.nil_prefix
  | cons x p ih =>
    obtain ⟨ta, rfl⟩ := ha
    obtain ⟨tb, rfl⟩ := hb
    simp only [List.cons_append, commonLen, if_true, List.take_succ_cons]
    exact (List.prefix_cons_inj x).2 (ih _ _ (List.prefix_append p ta) (List.prefix_append p tb))

/-- What the outer loop returns is a start of the running value and of every
string still to come, and the longest such. -/
theorem lcpLoop_spec (rest : List Str) (pfx : Str) :
    lcpLoop pfx rest <+: pfx ∧ (∀ s ∈ rest, lcpLoop pfx rest <+: s) ∧
      ∀ p : Str, p <+: pfx → (∀ s ∈ rest, p <+: s) → p <+: lcpLoop pfx rest := by
  induction rest generalizing pfx with
  | nil => exact ⟨List.prefix_refl _, by simp, fun p hp _ => hp⟩
  | cons s rest ih =>
    have hleft : pfx.take (commonLen pfx s) <+: pfx := List.take_prefix _ _
    have hright : pfx.take (commonLen pfx s) <+: s := take_commonLen_isPrefix_right pfx s
    by_cases hp : pfx.take (commonLen pfx s) = []
    · have hres : lcpLoop pfx (s :: rest) = [] := by simp [lcpLoop, hp]
      rw [hres]
      refine ⟨List.nil_prefix, fun _ _ => List.nil_prefix, ?_⟩
      intro p hp1 hp2
      have := isPrefix_take_commonLen p pfx s hp1 (hp2 s (List.mem_cons_self _ _))
      rwa [hp] at this
    · have hres : lcpLoop pfx (s :: rest) = lcpLoop (pfx.take (commonLen pfx s)) rest := by
        simp [lcpLoop, hp]
      rw [hres]
      obtain ⟨h1, h2, h3⟩ := ih (pfx.take (commonLen pfx s))
      refine ⟨h1.trans hleft, ?_, ?_⟩
      · intro t ht
        rcases List.mem_cons.1 ht with rfl | ht
        · exact h1.trans hright
        · exact h2 t ht
      · intro p hp1 hp2
        exact h3 p (isPrefix_take_commonLen p pfx s hp1 (hp2 s (List.mem_cons_self _ _)))
          (fun t ht => hp2 t (List.mem_cons_of_mem _ ht))

/-- The result of `longestCommonPrefix` is a start of every string. -/
theorem lcp_isPrefix_of_mem (strs : List Str) (s : Str) (hs : s ∈ strs) :
    longestCommonPrefix strs <+: s := by
  cases strs with
  | nil => exact absurd hs (List.not_mem_nil _)
  | cons s0 rest =>
    obtain ⟨h1, h2, _⟩ := lcpLoop_spec rest s0
    rcases List.mem_cons.1 hs with rfl | hs
    · exact h1
    · exact h2 s hs

/-- Every common start of the strings is a start of the result of
`longestCommonPrefix`. -/
theorem isPrefix_lcp (strs : List Str) (hne : strs ≠ []) (p : Str)
    (hp : ∀ s ∈ strs, p <+: s) : p <+: longestCommonPrefix strs := by
  cases strs with
  | nil => exact absurd rfl hne
  | cons s0 rest =>
    exact (lcpLoop_spec rest s0).2.2 p (hp s0 (List.mem_cons_self _ _))
      (fun s hs => hp s (List.mem_cons_of_mem _ hs))

/-- C15. For the empty list `longestCommonPrefix` returns the empty string.
For every non-empty list of strings its result is a start of every string of
the list, and every string that is a start of every string of the list is a
start of the result: it is the longest such string. -/
theorem longestCommonPrefix_spec (strs : List Str) :
    longestCommonPrefix [] = [] ∧
    (strs ≠ [] →
      (∀ s ∈ strs, longestCommonPrefix strs <+: s) ∧
      (∀ p : Str, (∀ s ∈ strs, p <+: s) → p <+: longestCommonPrefix strs) ∧
      (∀ p : Str, (∀ s ∈ strs, p <+: s) → p.length ≤ (longestCommonPrefix strs).length)) := by
  refine ⟨rfl, fun hne => ⟨lcp_isPrefix_of_mem strs, isPrefix_lcp strs hne, ?_⟩⟩
  intro p hp
  exact (isPrefix_lcp strs hne p hp).length_le

/-- C15 at the strings `interview`, `internet`, `interval`: the result is
`inter`, and the common start `int` is a start of it. -/
theorem longestCommonPrefix_spec_witness :
    longestCommonPrefix ["interview".toList, "internet".toList, "interval".toList] =
      "inter".toList ∧
    "int".toList <+: longestCommonPrefix
      ["interview".toList, "internet".toList, "interval".toList] :=
  ⟨by decide,
    ((longestCommonPrefix_spec
      ["interview".toList, "internet".toList, "interval".toList]).2 (by decide)).2.1
      "int".toList (by decide)⟩

/-! ## The candidate list -/

theorem char_eq_of_toNat_eq {a b : Char} (h : a.toNat = b.toNat) : a = b := by
  rw [← Char.ofNat_toNat a, ← Char.ofNat_toNat b, h]

theorem strLt_irrefl (a : Str) : strLt a a = false := by
  induction a with
  | nil => rfl
  | cons x a ih => simp [strLt, ih]

/-- Of two different strings one is below the other. -/
theorem strLt_of_ne (a b : Str) (hne : a ≠ b) (h : strLt b a = false) :
    strLt a b = true := by
  induction a generalizing b with
  | nil =>
    cases b with
    | nil => exact absurd rfl hne
    | cons y b => rfl
  | cons x a ih =>
    cases b with
    | nil => simp [strLt] at h
    | cons y b =>
      simp only [strLt] at h ⊢
      by_cases h1 : x.toNat < y.toNat
      · simp [h1]
      · by_cases h2 : y.toNat < x.toNat
        · simp [h2] at h
        · have hxy : x = y := char_eq_of_toNat_eq (by omega)
          subst hxy
          simp only [h1, if_false] at h ⊢
          exact ih b (fun hab => hne (by rw [hab])) h

theorem strLt_asymm (a b : Str) (h : strLt a b = true) : strLt b a = false := by
  induction a generalizing b with
  | nil =>
    cases b with
    | nil => rfl
    | cons y b => rfl
  | cons x a ih =>
    cases b with
    | nil => simp [strLt] at h
    | cons y b =>
      simp only [strLt] at h ⊢
      by_cases h1 : x.toNat < y.toNat
      · have h2 : ¬ y.toNat < x.toNat := by omega
        simp [h1, h2]
      · by_cases h2 : y.toNat < x.toNat
        · simp [h1, h2] at h
        · simp only [h1, h2, if_false] at h ⊢
          exact ih b h

theorem strLt_trans (a b c : Str) (hab : strLt a b = true) (hbc : strLt b c = true) :
    strLt a c = true := by
  induction a generalizing b c with
  | nil =>
    cases c with
    | nil =>
      cases b with
      | nil => simp [strLt] at hab
      | cons y b => simp [strLt] at hbc
    | cons z c => rfl
  | cons x a ih =>
    cases b with
    | nil => simp [strLt] at hab
    | cons y b =>
      cases c with
      | nil => simp [strLt] at hbc
      | cons z c =>
        simp only [strLt] at hab hbc ⊢
        by_cases h1 : x.toNat < y.toNat
        · by_cases h3 : y.toNat < z.toNat
          · have : x.toNat < z.toNat := by omega
            simp [this]
          · by_cases h4 : z.toNat < y.toNat
            · simp [h3, h4] at hbc
            · have : x.toNat < z.toNat := by omega
              simp [this]
        · by_cases h2 : y.toNat < x.toNat
          · simp [h1, h2] at hab
          · simp only [h1, h2, if_false] at hab
            by_cases h3 : y.toNat < z.toNat
            · have : x.toNat < z.toNat := by omega
              simp [this]
            · by_cases h4 : z.toNat < y.toNat
              · simp [h3, h4] at hbc
              · simp only [h3, h4, if_false] at hbc
                have h5 : ¬ x.toNat < z.toNat := by omega
                have h6 : ¬ z.toNat < x.toNat := by omega
                simp only [h5, h6, if_false]
                exact ih b c hab hbc

theorem strLe_total (a b : Str) : strLe a b = true ∨ strLe b a = true := by
  by_cases h : strLt b a = true
  · right
    simp [strLe, strLt_asymm b a h]
  · left
    simpa [strLe] using h

theorem strLe_trans (a b c : Str) (hab : strLe a b = true) (hbc : strLe b c = true) :
    strLe a c = true := by
  simp only [strLe, Bool.not_eq_true'] at hab hbc ⊢
  by_cases hca : strLt c a = true
  · by_cases hab2 : a = b
    · subst hab2
      rw [hca] at hbc
      exact absurd hbc (by decide)
    · have h1 : strLt a b = true := strLt_of_ne a b hab2 hab
      have h2 : strLt c b = true := strLt_trans c a b hca h1
      rw [h2] at hbc
      exact absurd hbc (by decide)
  · simpa using hca

/-- The sorted list holds the same names. -/
theorem mem_sort (l : List Str) (n : Str) : n ∈ sort l ↔ n ∈ l :=
  (List.perm_insertionSort _ l).mem_iff

/-- A list without repetition is strictly increasing once sorted. -/
theorem sort_strictly_increasing (l : List Str) (hnd : l.Nodup) :
    List.Pairwise (fun a b => strLt a b = true) (sort l) := by
  have hs : List.Pairwise (fun a b => strLe a b = true) (sort l) :=
    @List.sorted_insertionSort Str (fun a b => strLe a b = true) _ ⟨strLe_total⟩
      ⟨strLe_trans⟩ l
  have hn : List.Pairwise (fun a b => a ≠ b) (sort l) :=
    ((List.perm_insertionSort _ l).nodup_iff).2 hnd
  refine (hs.and hn).imp ?_
  intro a b hab
  apply strLt_of_ne a b hab.2
  simpa [strLe] using hab.1

/-- C16. For every first token the candidate list `handleTabPress` uses
after sorting is strictly increasing in the byte-wise lexicographic order,
hence holds no name twice, and a name belongs to it if and only if some entry
of some directory of the search path has that name, is a regular file, is
executable and has the first token as a literal start. -/
theorem candidates_sorted_exact (env : PathEnv) (firstToken : Str) :
    List.Pairwise (fun a b => strLt a b = true) (sort (collectCandidates env firstToken)) ∧
    (sort (collectCandidates env firstToken)).Nodup ∧
    ∀ n : Str, n ∈ sort (collectCandidates env firstToken) ↔ isCandidate env firstToken n :=
  ⟨sort_strictly_increasing _ (nodup_collectCandidates env firstToken),
    ((List.perm_insertionSort _ _).nodup_iff).2 (nodup_collectCandidates env firstToken),
    fun n => (mem_sort _ n).trans (mem_collectCandidates env firstToken n)⟩

/-! ## The press state and the typed text -/

/-- C17 as stated fails with the single executable `ls`, the line `xy` and the
initial press state: no name starts with `xy`, and after the call the press
state is `(xy, 1)`, not `(empty, 0)`. -/
theorem no_candidate_state_counterexample :
    firstTokenOf "xy".toList = "xy".toList ∧ "xy".toList ≠ [] ∧
    (∀ n, ¬ isCandidate lsEnv "xy".toList n) ∧
    (handleTabPress lsEnv TabState.init "xy".toList).state =
      { last_tab_token := "xy".toList, tab_press_count := 1 } ∧
    (handleTabPress lsEnv TabState.init "xy".toList).state ≠ TabState.init := by
  refine ⟨by decide, by decide, ?_, by decide, by decide⟩
  intro n h
  have hm := (mem_collectCandidates lsEnv "xy".toList n).2 h
  rw [show collectCandidates lsEnv "xy".toList = [] by decide] at hm
  exact absurd hm (List.not_mem_nil n)

/-- C17, amended.  For a line with a non-empty first token `ft` and every
prior press state, if no executable name starts with `ft` then after
`handleTabPress` the press state is not reset; it is the one the update at
the head of the function left.  The recorded token is `ft`.  The count is 1
when `ft` differs from the token recorded before.  When it is the same the
count is the count before plus one, computed as a 32-bit `int`: the count
before plus one for a count before from -2147483648 to 2147483646, and
-2147483648 for the count before 2147483647. -/
theorem handleTabPress_no_candidate_state (env : PathEnv) (st : TabState) (ft rem : Str)
    (hne : ft ≠ []) (hft : noBlank ft) (hrem : blankHead rem = true)
    (hnone : ∀ n, ¬ isCandidate env ft n) :
    (handleTabPress env st (ft ++ rem)).state ≠ TabState.init ∧
    (handleTabPress env st (ft ++ rem)).state.last_tab_token = ft ∧
    (ft ≠ st.last_tab_token →
      (handleTabPress env st (ft ++ rem)).state.tab_press_count = 1) ∧
    (ft = st.last_tab_token →
      (handleTabPress env st (ft ++ rem)).state.tab_press_count =
        wrapInt32 (st.tab_press_count + 1)) ∧
    (ft = st.last_tab_token → -2147483648 ≤ st.tab_press_count →
      st.tab_press_count ≤ 2147483646 →
      (handleTabPress env st (ft ++ rem)).state.tab_press_count =
        st.tab_press_count + 1) ∧
    (ft = st.last_tab_token → st.tab_press_count = 2147483647 →
      (handleTabPress env st (ft ++ rem)).state.tab_press_count = -2147483648) := by
  rw [handleTabPress_of_no_candidate env st ft rem hne hft hrem hnone]
  have hlast : (updatePress st ft).last_tab_token = ft := by
    by_cases h : ft = st.last_tab_token
    · simp [updatePress, h]
    · simp [updatePress, h]
  refine ⟨?_, hlast, ?_, ?_, ?_, ?_⟩
  · intro hinit
    have hinit2 : updatePress st ft = TabState.init := hinit
    rw [hinit2] at hlast
    exact hne hlast.symm
  · intro h
    simp [updatePress, h]
  · intro h
    simp [updatePress, h]
  · intro h h1 h2
    simp only [updatePress, h, if_true, wrapInt32]
    omega
  · intro h h1
    simp only [updatePress, h, if_true, wrapInt32, h1]
    decide

/-- C17, amended, at the line `xy -a` with the single executable `ls`: from
the prior press state `(xy, 1)` the state becomes `(xy, 2)`, not the reset
state. -/
theorem handleTabPress_no_candidate_state_witness :
    (handleTabPress lsEnv { last_tab_token := "xy".toList, tab_press_count := 1 }
      "xy -a".toList).state ≠ TabState.init ∧
    (handleTabPress lsEnv { last_tab_token := "xy".toList, tab_press_count := 1 }
      "xy -a".toList).state.last_tab_token = "xy".toList ∧
    (handleTabPress lsEnv { last_tab_token := "xy".toList, tab_press_count := 1 }
      "xy -a".toList).state.tab_press_count = 1 + 1 :=
  have h := handleTabPress_no_candidate_state lsEnv
    { last_tab_token := "xy".toList, tab_press_count := 1 } "xy".toList " -a".toList
    (by decide) (by decide) (by decide)
    (fun n h => by
      have hm := (mem_collectCandidates lsEnv "xy".toList n).2 h
      rw [show collectCandidates lsEnv "xy".toList = [] by decide] at hm
      exact absurd hm (List.not_mem_nil n))
  ⟨h.1, h.2.1, h.2.2.2.2.1 rfl (by decide) (by decide)⟩

theorem find_first_of_none (s : Str) (h : find_first_of [SPACE, TAB] s = none) :
    noBlank s := by
  induction s with
  | nil => intro c hc; exact absurd hc (List.not_mem_nil c)
  | cons a s ih =>
    by_cases ha : a ∈ [SPACE, TAB]
    · simp [find_first_of, ha] at h
    · simp only [find_first_of, ha, if_false] at h
      cases hf : find_first_of [SPACE, TAB] s with
      | some k => simp [hf] at h
      | none =>
        intro c hc
        rcases List.mem_cons.1 hc with rfl | hc
        · simpa using ha
        · exact ih hf c hc

theorem find_first_of_some (s : Str) (k : Nat)
    (h : find_first_of [SPACE, TAB] s = some k) :
    noBlank (s.take k) ∧ blankHead (s.drop k) = true := by
  induction s generalizing k with
  | nil => simp [find_first_of] at h
  | cons a s ih =>
    by_cases ha : a ∈ [SPACE, TAB]
    · simp only [find_first_of, ha, if_true, Option.some.injEq] at h
      subst h
      refine ⟨fun c hc => absurd hc (by simp), ?_⟩
      simpa [blankHead] using ha
    · simp only [find_first_of, ha, if_false] at h
      cases hf : find_first_of [SPACE, TAB] s with
      | none => simp [hf] at h
      | some j =>
        simp only [hf, Option.some.injEq] at h
        subst h
        obtain ⟨h1, h2⟩ := ih j hf
        refine ⟨?_, by simpa using h2⟩
        intro c hc
        rw [List.take_succ_cons] at hc
        rcases List.mem_cons.1 hc with rfl | hc
        · simpa using ha
        · exact h1 c hc

/-- The split of `handleTabPress`: the line is the first token followed by
the remainder, the first token has no space or tab, and the remainder is
empty or starts with one. -/
theorem split_spec (input : Str) :
    input = firstTokenOf input ++ remainderOf input ∧ noBlank (firstTokenOf input) ∧
      blankHead (remainderOf input) = true := by
  unfold firstTokenOf remainderOf
  cases h : find_first_of [SPACE, TAB] input with
  | none => exact ⟨by simp, find_first_of_none input h, rfl⟩
  | some k =>
    obtain ⟨h1, h2⟩ := find_first_of_some input k h
    exact ⟨(List.take_append_drop k input).symm, h1, h2⟩

theorem isPrefix_append_drop (p l : Str) (h : p <+: l) : p ++ l.drop p.length = l := by
  obtain ⟨t, rfl⟩ := h
  simp

/-- The first token is a start of the common start of the sorted candidates. -/
theorem firstToken_isPrefix_lcp (env : PathEnv) (ft : Str)
    (hC : collectCandidates env ft ≠ []) :
    ft <+: longestCommonPrefix (sort (collectCandidates env ft)) := by
  apply isPrefix_lcp _ (fun h => hC ((sort_eq_nil_iff _).1 h))
  intro s hs
  obtain ⟨_, _, _, _, _, _, _, hpre⟩ :=
    (mem_collectCandidates env ft s).1 ((mem_sort _ s).1 hs)
  exact hpre

/-- When the extending branch is not taken the line is left as it is. -/
theorem handleTabPress_input_of_not_expansion (env : PathEnv) (st : TabState) (input : Str)
    (h : ¬ expansionOccurs env input) : (handleTabPress env st input).input = input := by
  unfold expansionOccurs at h
  unfold handleTabPress
  by_cases h1 : firstTokenOf input = []
  · simp [h1]
  · by_cases h2 : collectCandidates env (firstTokenOf input) = []
    · simp [h1, h2]
    · have h3 : ¬ (firstTokenOf input).length <
          (longestCommonPrefix (sort (collectCandidates env (firstTokenOf input)))).length :=
        fun h3 => h ⟨h1, h2, h3⟩
      simp only [h1, h2, if_false, gt_iff_lt, h3]
      split_ifs <;> rfl

/-- When the extending branch is taken the line and the output are built from
the common start of the sorted candidates. -/
theorem handleTabPress_of_expansion (env : PathEnv) (st : TabState) (input : Str)
    (h : expansionOccurs env input) :
    handleTabPress env st input =
      { input := longestCommonPrefix (sort (collectCandidates env (firstTokenOf input))) ++
          (if (sort (collectCandidates env (firstTokenOf input))).length = 1 ∧
            remainderOf input = [] then [SPACE] else []) ++ remainderOf input
        out := (longestCommonPrefix
            (sort (collectCandidates env (firstTokenOf input)))).drop
              (firstTokenOf input).length ++
          (if (sort (collectCandidates env (firstTokenOf input))).length = 1 ∧
            remainderOf input = [] then [SPACE] else [])
        state := TabState.init } := by
  obtain ⟨h1, h2, h3⟩ := h
  unfold handleTabPress
  simp [h1, h2, h3]

/-- C20. For every line, every prior press state and every environment, with
the line split at its first space or tab into first token and remainder: the
line after `handleTabPress` starts with the first token, ends with the
remainder and is at least as long as the line before; and when the remainder
is empty and the extending branch is taken, the new line is the old line
followed by the text written to the terminal. -/
theorem handleTabPress_preserves_text (env : PathEnv) (st : TabState) (input : Str) :
    input = firstTokenOf input ++ remainderOf input ∧
    noBlank (firstTokenOf input) ∧ blankHead (remainderOf input) = true ∧
    firstTokenOf input <+: (handleTabPress env st input).input ∧
    remainderOf input <:+ (handleTabPress env st input).input ∧
    input.length ≤ (handleTabPress env st input).input.length ∧
    (remainderOf input = [] → expansionOccurs env input →
      (handleTabPress env st input).input = input ++ (handleTabPress env st input).out) := by
  obtain ⟨hsplit, hnb, hbh⟩ := split_spec input
  refine ⟨hsplit, hnb, hbh, ?_⟩
  by_cases hex : expansionOccurs env input
  · have hpre : firstTokenOf input <+:
        longestCommonPrefix (sort (collectCandidates env (firstTokenOf input))) :=
      firstToken_isPrefix_lcp env _ hex.2.1
    rw [handleTabPress_of_expansion env st input hex]
    refine ⟨?_, ?_, ?_, ?_⟩
    · rw [List.append_assoc]
      exact hpre.trans (List.prefix_append _ _)
    · exact List.suffix_append _ _
    · have hlen := hex.2.2
      have hl : input.length = (firstTokenOf input).length + (remainderOf input).length := by
        conv_lhs => rw [hsplit]
        exact List.length_append _ _
      simp only [List.length_append]
      omega
    · intro hrem _
      have hin : input = firstTokenOf input := by
        have h := hsplit
        rw [hrem, List.append_nil] at h
        exact h
      have key : ∀ sp : Str,
          longestCommonPrefix (sort (collectCandidates env (firstTokenOf input))) ++ sp ++ [] =
            input ++ ((longestCommonPrefix
              (sort (collectCandidates env (firstTokenOf input)))).drop
                (firstTokenOf input).length ++ sp) := by
        intro sp
        have e1 := (congrArg (fun x => x ++ (longestCommonPrefix
            (sort (collectCandidates env (firstTokenOf input)))).drop
              (firstTokenOf input).length) hin).trans (isPrefix_append_drop _ _ hpre)
        rw [List.append_nil, ← List.append_assoc, e1]
      rw [hrem]
      exact key _
  · rw [handleTabPress_input_of_not_expansion env st input hex]
    refine ⟨?_, ?_, le_refl _, fun _ h => absurd h hex⟩
    · conv_rhs => rw [hsplit]
      exact List.prefix_append _ _
    · conv_rhs => rw [hsplit]
      exact List.suffix_append _ _

/-- C20 at the line `fo` with the executables `foo`, `food`, `fool`: the new
line `foo` is the old line followed by the `o` written to the terminal. -/
theorem handleTabPress_preserves_text_witness :
    (handleTabPress fooEnv TabState.init "fo".toList).input =
      "fo".toList ++ (handleTabPress fooEnv TabState.init "fo".toList).out :=
  (handleTabPress_preserves_text fooEnv TabState.init "fo".toList).2.2.2.2.2.2
    (by decide) (by decide)

end CustomShell
